import Mathlib

/-!
Verification of the alias allocation and assignment engine of
`mirrary/registration_manager` (`src/database.py`).

The engine is embedded shallowly:

* the in-memory state of the `Database` class (pool of generated addresses,
  per-service assignment mapping) together with the durable files it rewrites
  is the structure `DB`;
* the Python dict holding the service data is an association list with unique
  keys, accessed with `dictGet`/`dictSet` (Python dict assignment replaces the
  value in place, a fresh key is appended in insertion order);
* a persisted value is either a legacy bare string or a list of strings
  (`SVal`), exactly the `Union[str, List[str]]` of the source;
* `service_name.lower()` is modelled by ASCII case folding (`pyLower`),
  Python truthiness of an optional string (`if existing_gmail:`) by
  `pyTruthy`, and `email.endswith(suffix)` by a list suffix test.

Every operation of `database.py` that the specification talks about is
translated function by function; file writes are recorded in the
`diskGmails`/`diskServices` fields of the state.
-/

/-! ### ASCII case folding, the model of Python `str.lower()` -/

theorem charToNat_ofNat_of_valid (n : Nat) (h : n.isValidChar) :
    (Char.ofNat n).toNat = n := by
  rw [Char.ofNat, dif_pos h]
  rfl

theorem Char.toLower_idem (c : Char) : c.toLower.toLower = c.toLower := by
  unfold Char.toLower
  by_cases h : c.toNat ≥ 65 ∧ c.toNat ≤ 90
  · rw [if_pos h]
    have hv : (c.toNat + 32).isValidChar := Or.inl (by omega)
    rw [charToNat_ofNat_of_valid _ hv, if_neg (by omega)]
  · rw [if_neg h, if_neg h]

/-- Model of Python `str.lower()`: fold every character to lower case
(ASCII letters, as in `Char.toLower`). -/
def pyLower (s : String) : String := ⟨s.data.map Char.toLower⟩

theorem pyLower_idem (s : String) : pyLower (pyLower s) = pyLower s := by
  unfold pyLower
  refine congrArg String.mk ?_
  show (s.data.map Char.toLower).map Char.toLower = s.data.map Char.toLower
  rw [List.map_map]
  exact List.map_congr_left fun c _ => Char.toLower_idem c

/-- Python truthiness of `Optional[str]`: `None` and the empty string are
falsy, every other string is truthy. -/
def pyTruthy : Option String → Bool
  | none => false
  | some s => s ≠ ""

/-- Model of Python `s.endswith(suffix)`. -/
def pyEndsWith (s suffix : String) : Bool := suffix.data.isSuffixOf s.data

/-! ### The persisted service mapping (`Dict[str, Union[str, List[str]]]`) -/

/-- A value of the service mapping: legacy single address (bare string) or a
list of addresses. -/
inductive SVal where
  | str (s : String)
  | list (l : List String)
deriving DecidableEq

abbrev ServicesData := List (String × SVal)

/-- Python `d.get(k)` / `k in d`: the value stored at key `k`. -/
def dictGet (d : ServicesData) (k : String) : Option SVal :=
  match d with
  | [] => none
  | (k', v) :: rest => if k' = k then some v else dictGet rest k

/-- Python `d[k] = v`: replace the value of an existing key in place,
append a fresh key at the end. -/
def dictSet (d : ServicesData) (k : String) (v : SVal) : ServicesData :=
  match d with
  | [] => [(k, v)]
  | (k', v') :: rest => if k' = k then (k, v) :: rest else (k', v') :: dictSet rest k v

theorem dictGet_dictSet_self (d : ServicesData) (k : String) (v : SVal) :
    dictGet (dictSet d k v) k = some v := by
  induction d with
  | nil => simp [dictGet, dictSet]
  | cons kv rest ih =>
      obtain ⟨k', v'⟩ := kv
      by_cases h : k' = k
      · subst h
        simp [dictGet, dictSet]
      · simp [dictGet, dictSet, h, ih]

theorem dictGet_dictSet_ne (d : ServicesData) (k k' : String) (v : SVal)
    (h : k' ≠ k) : dictGet (dictSet d k v) k' = dictGet d k' := by
  have h' : k ≠ k' := Ne.symm h
  induction d with
  | nil => simp [dictGet, dictSet, h']
  | cons kv rest ih =>
      obtain ⟨k₀, v₀⟩ := kv
      by_cases h₀ : k₀ = k
      · subst h₀
        simp [dictGet, dictSet, h']
      · by_cases h₁ : k₀ = k'
        · subst h₁
          simp [dictGet, dictSet, h₀]
        · simp [dictGet, dictSet, h₀, h₁, ih]

/-! ### The `Database` state

`gmails` / `servicesData` are the two in-memory fields of the class;
`diskGmails` / `diskServices` are the current contents of `GMAILS_FILE`
and `DATABASE_FILE`, recording every file write the methods perform. -/

structure DB where
  gmails : List String
  servicesData : ServicesData
  diskGmails : List String
  diskServices : ServicesData
deriving DecidableEq

/-- Model of `_save_services_data`: rewrite `DATABASE_FILE` with the in-memory data. -/
def saveServicesData (db : DB) : DB := { db with diskServices := db.servicesData }

/-- Model of `_migrate_data_if_needed`: every legacy bare-string value becomes a
one-element list; the file is rewritten only when some value changed. -/
def migrateVal : SVal → SVal
  | .str s => .list [s]
  | .list l => .list l

def isLegacy : SVal → Bool
  | .str _ => true
  | .list _ => false

def migrateDataIfNeeded (db : DB) : DB :=
  let d := db.servicesData.map fun kv => (kv.1, migrateVal kv.2)
  if db.servicesData.any fun kv => isLegacy kv.2 then
    { db with servicesData := d, diskServices := d }
  else
    { db with servicesData := d }

/-- The recurring `isinstance` idiom of the source: view a stored value (or a
missing entry) as a list, a legacy bare string as a one-element list. -/
def valEmails : Option SVal → List String
  | none => []
  | some (.str s) => [s]
  | some (.list l) => l

/-- Model of `get_service_gmails`: the list bound to a service, lower-casing the name
and normalizing a legacy bare string to a one-element list. -/
def getServiceGmails (db : DB) (serviceName : String) : List String :=
  valEmails (dictGet db.servicesData (pyLower serviceName))

/-- Model of `get_latest_service_gmail`: last element of the service's list. -/
def getLatestServiceGmail (db : DB) (serviceName : String) : Option String :=
  (getServiceGmails db serviceName).getLast?

/-- Model of `get_unused_gmail_for_service`: first pool member not already recorded
for this service. -/
def getUnusedGmailForService (db : DB) (serviceName : String) : Option String :=
  let usedForService := valEmails (dictGet db.servicesData (pyLower serviceName))
  db.gmails.find? fun gmail => !(usedForService.contains gmail)

/-- Lines 115-116 of `assign_gmail_to_service`: create an empty entry when the
service is unknown. -/
def ensureKey (d : ServicesData) (sn : String) : ServicesData :=
  match dictGet d sn with
  | none => dictSet d sn (.list [])
  | some _ => d

/-- Lines 119-120 of `assign_gmail_to_service`: convert a legacy bare string of
this entry to a one-element list, in place. -/
def normalizeKey (d : ServicesData) (sn : String) : ServicesData :=
  match dictGet d sn with
  | some (.str a) => dictSet d sn (.list [a])
  | _ => d

/-- Model of `assign_gmail_to_service`: create the entry if absent, normalize a legacy
string, then append the address and save — but only when it is new. -/
def assignGmailToService (db : DB) (serviceName gmail : String) : DB :=
  let sn := pyLower serviceName
  let d1 := normalizeKey (ensureKey db.servicesData sn) sn
  match dictGet d1 sn with
  | some (.list l) =>
      if gmail ∈ l then { db with servicesData := d1 }
      else saveServicesData { db with servicesData := dictSet d1 sn (.list (l ++ [gmail])) }
  | _ => { db with servicesData := d1 }

/-- The sentinel string returned when no address is left for a service. -/
def noGmailSentinel : String := "Нет доступных почт"

/-- Tail of `check_and_assign_gmail`, the part after the existing-binding test. -/
def checkAndAssignFresh (db : DB) (sn : String) : DB × Bool × String :=
  match getUnusedGmailForService db sn with
  | some g =>
      if g ≠ "" then (assignGmailToService db sn g, false, g)
      else (db, false, noGmailSentinel)
  | none => (db, false, noGmailSentinel)

/-- Model of `check_and_assign_gmail`: re-surface the current binding, otherwise pick
and record the first unused address, otherwise report exhaustion. The `Bool`
is Python's "did a binding already exist". -/
def checkAndAssignGmail (db : DB) (serviceName : String) : DB × Bool × String :=
  let sn := pyLower serviceName
  match getLatestServiceGmail db sn with
  | some g => if g ≠ "" then (db, true, g) else checkAndAssignFresh db sn
  | none => checkAndAssignFresh db sn

/-! ### Pool generation (`generate_domain_names`)

The local part is handled as its list of characters (Python string slicing
`u[:p] + '.' + u[p:]` is `take`/`drop` on the character list).  The loop
enumerates `itertools.combinations(range(1, len(username)), i)`:
`combinations k xs` lists every `k`-element combination of `xs` keeping the
order of `xs`, combinations in lexicographic order of the chosen elements —
exactly the documented enumeration order of `itertools.combinations`. -/

def combinations : Nat → List Nat → List (List Nat)
  | 0, _ => [[]]
  | _ + 1, [] => []
  | k + 1, x :: xs => ((combinations k xs).map (x :: ·)) ++ combinations (k + 1) xs

/-- Model of `range(1, n)`: the internal boundary positions of a local part of
length `n`. -/
def boundaries (n : Nat) : List Nat := List.range' 1 (n - 1)

/-- One step of the insertion loop: `u[:p] + '.' + u[p:]`. -/
def insertDotAt (l : List Char) (p : Nat) : List Char := l.take p ++ '.' :: l.drop p

/-- Insertion into a descending list, one step of the model of
`sorted(pos, reverse=True)`. -/
def insertDescend (a : Nat) : List Nat → List Nat
  | [] => [a]
  | b :: bs => if b ≤ a then a :: b :: bs else b :: insertDescend a bs

/-- Model of Python `sorted(pos, reverse=True)`: insertion sort into
descending order. -/
def pySortedDesc (l : List Nat) : List Nat := l.foldr insertDescend []

/-- The body of the generation loop: insert a dot at every chosen position,
walking the positions from the back so earlier indices do not shift. -/
def applyDots (l : List Char) (pos : List Nat) : List Char :=
  (pySortedDesc pos).foldl insertDotAt l

/-- The fixed domain appended to every generated local part. -/
def gmailSuffix : List Char := "@gmail.com".data

/-- Model of `email.split('@')[0]`: the characters before the first `'@'`. -/
def localPart (email : String) : List Char := email.data.takeWhile (· ≠ '@')

/-- The full generated pool: the seed itself, then for each dot count
`i = 1, …, N-1` and each combination of boundary positions the dotted
variant, in loop order. -/
def generatedEmails (email : String) : List String :=
  let username := localPart email
  let n := username.length
  email :: (boundaries n).flatMap fun i =>
    (combinations i (boundaries n)).map fun pos =>
      String.mk (applyDots username pos ++ gmailSuffix)

/-- Model of `generate_domain_names`: validate the seed, rebuild the pool, rewrite
`GMAILS_FILE`, clear the service data and rewrite `DATABASE_FILE`.  A
`ValueError` leaves the state untouched (the check precedes every
mutation in the source). -/
def generateDomainNames (db : DB) (email : String) : Except String Nat × DB :=
  if pyEndsWith email "@gmail.com" then
    let pool := generatedEmails email
    (.ok pool.length,
      { gmails := pool, servicesData := [], diskGmails := pool, diskServices := [] })
  else
    (.error "Почта должна быть Gmail (@gmail.com)", db)

/-! ### Specification-side description of the generated pool

`dotsAt c i l` inserts a separator in front of every character of `l` whose
position (counted from `i`) is a chosen boundary — the specification's
"inserting a separator at each chosen boundary", independent of the
back-to-front slicing loop of the source. -/

def dotsAt (c : List Nat) : Nat → List Char → List Char
  | _, [] => []
  | i, ch :: rest =>
      if i ∈ c then '.' :: ch :: dotsAt c (i + 1) rest
      else ch :: dotsAt c (i + 1) rest

/-- The pool as the specification words it: the unmodified seed first, then
by increasing separator count, within one count in combination order. -/
def specPool (email : String) : List String :=
  let username := localPart email
  let n := username.length
  email :: (boundaries n).flatMap fun i =>
    (combinations i (boundaries n)).map fun pos =>
      String.mk (dotsAt pos 0 username ++ gmailSuffix)

/-! ### Basic facts about the assignment operations -/

theorem getServiceGmails_pyLower (db : DB) (s : String) :
    getServiceGmails db (pyLower s) = getServiceGmails db s := by
  unfold getServiceGmails
  rw [pyLower_idem]

theorem getLatestServiceGmail_pyLower (db : DB) (s : String) :
    getLatestServiceGmail db (pyLower s) = getLatestServiceGmail db s := by
  unfold getLatestServiceGmail
  rw [getServiceGmails_pyLower]

theorem getUnusedGmailForService_pyLower (db : DB) (s : String) :
    getUnusedGmailForService db (pyLower s) = getUnusedGmailForService db s := by
  unfold getUnusedGmailForService
  rw [pyLower_idem]

theorem assignGmailToService_pyLower (db : DB) (s g : String) :
    assignGmailToService db (pyLower s) g = assignGmailToService db s g := by
  unfold assignGmailToService
  rw [pyLower_idem]

/-- After the two in-place normalization steps the entry surely is a list:
the list view of whatever was stored before. -/
theorem dictGet_normalizeKey_ensureKey (d : ServicesData) (sn : String) :
    dictGet (normalizeKey (ensureKey d sn) sn) sn =
      some (.list (valEmails (dictGet d sn))) := by
  cases h0 : dictGet d sn with
  | none =>
      unfold ensureKey normalizeKey
      simp [h0, dictGet_dictSet_self, valEmails]
  | some v =>
      cases v with
      | str a =>
          unfold ensureKey normalizeKey
          simp [h0, dictGet_dictSet_self, valEmails]
      | list l =>
          unfold ensureKey normalizeKey
          simp [h0, valEmails]

/-- The normalization steps only touch the entry of `sn`. -/
theorem dictGet_normalizeKey_ensureKey_ne (d : ServicesData) (sn k : String)
    (hk : k ≠ sn) :
    dictGet (normalizeKey (ensureKey d sn) sn) k = dictGet d k := by
  cases h0 : dictGet d sn with
  | none =>
      unfold ensureKey normalizeKey
      simp [h0, dictGet_dictSet_self, dictGet_dictSet_ne _ _ _ _ hk]
  | some v =>
      cases v with
      | str a =>
          unfold ensureKey normalizeKey
          simp [h0, dictGet_dictSet_self, dictGet_dictSet_ne _ _ _ _ hk]
      | list l =>
          unfold ensureKey normalizeKey
          simp [h0]

/-- Closed form of `assign_gmail_to_service`: normalize the entry, then
either leave everything as is (address already recorded) or append the
address and write the file. -/
theorem assignGmailToService_eq (db : DB) (s g : String) :
    assignGmailToService db s g =
      (if g ∈ valEmails (dictGet db.servicesData (pyLower s)) then
        { db with
            servicesData := normalizeKey (ensureKey db.servicesData (pyLower s)) (pyLower s) }
      else
        { db with
            servicesData :=
              dictSet (normalizeKey (ensureKey db.servicesData (pyLower s)) (pyLower s))
                (pyLower s)
                (.list (valEmails (dictGet db.servicesData (pyLower s)) ++ [g])),
            diskServices :=
              dictSet (normalizeKey (ensureKey db.servicesData (pyLower s)) (pyLower s))
                (pyLower s)
                (.list (valEmails (dictGet db.servicesData (pyLower s)) ++ [g])) }) := by
  unfold assignGmailToService saveServicesData
  simp only [dictGet_normalizeKey_ensureKey]

/-- Assignment never touches the pool, in memory or on disk. -/
theorem assignGmailToService_gmails (db : DB) (s g : String) :
    (assignGmailToService db s g).gmails = db.gmails ∧
    (assignGmailToService db s g).diskGmails = db.diskGmails := by
  rw [assignGmailToService_eq]
  split <;> exact ⟨rfl, rfl⟩

/-- Assignment only rewrites the entry of the normalized service name. -/
theorem dictGet_assignGmailToService_ne (db : DB) (s g : String) (k : String)
    (hk : k ≠ pyLower s) :
    dictGet (assignGmailToService db s g).servicesData k = dictGet db.servicesData k := by
  rw [assignGmailToService_eq]
  split
  · exact dictGet_normalizeKey_ensureKey_ne _ _ _ hk
  · show dictGet (dictSet _ _ _) k = _
    rw [dictGet_dictSet_ne _ _ _ _ hk]
    exact dictGet_normalizeKey_ensureKey_ne _ _ _ hk

/-- The entry of the assigned service after `assign_gmail_to_service`. -/
theorem dictGet_assignGmailToService_self (db : DB) (s g : String) :
    dictGet (assignGmailToService db s g).servicesData (pyLower s) =
      some (.list (if g ∈ getServiceGmails db s then getServiceGmails db s
                   else getServiceGmails db s ++ [g])) := by
  rw [assignGmailToService_eq]
  unfold getServiceGmails
  split
  · show dictGet (normalizeKey _ _) _ = _
    rw [dictGet_normalizeKey_ensureKey]
  · show dictGet (dictSet _ _ _) _ = _
    rw [dictGet_dictSet_self]

/-- Re-assigning an address that is already in the (list-form) entry is a
strict no-op. -/
theorem assignGmailToService_of_mem (db : DB) (s g : String) (l : List String)
    (hget : dictGet db.servicesData (pyLower s) = some (.list l)) (hmem : g ∈ l) :
    assignGmailToService db s g = db := by
  have hek : ensureKey db.servicesData (pyLower s) = db.servicesData := by
    unfold ensureKey
    rw [hget]
  have hnk : normalizeKey db.servicesData (pyLower s) = db.servicesData := by
    unfold normalizeKey
    rw [hget]
  rw [assignGmailToService_eq, hek, hnk, hget]
  simp only [valEmails]
  rw [if_pos hmem]

theorem getServiceGmails_assign_same (db : DB) (s g t : String)
    (ht : pyLower t = pyLower s) :
    getServiceGmails (assignGmailToService db s g) t =
      (if g ∈ getServiceGmails db s then getServiceGmails db s
       else getServiceGmails db s ++ [g]) := by
  unfold getServiceGmails
  rw [ht, dictGet_assignGmailToService_self]
  rfl

theorem getServiceGmails_assign_ne (db : DB) (s g t : String)
    (ht : pyLower t ≠ pyLower s) :
    getServiceGmails (assignGmailToService db s g) t = getServiceGmails db t := by
  unfold getServiceGmails
  rw [dictGet_assignGmailToService_ne _ _ _ _ ht]

/-- A successful `find?` splits the list at the first hit. -/
theorem find?_eq_some_split {α : Type} (p : α → Bool) (l : List α) (a : α)
    (h : l.find? p = some a) :
    ∃ l₁ l₂, l = l₁ ++ a :: l₂ ∧ ∀ x ∈ l₁, p x = false := by
  induction l with
  | nil => simp at h
  | cons x xs ih =>
      by_cases hp : p x
      · refine ⟨[], xs, ?_, by simp⟩
        rw [List.find?_cons_of_pos _ hp] at h
        simpa using (congrArg (fun o => o.getD x) h.symm).symm
      · rw [List.find?_cons_of_neg _ hp] at h
        obtain ⟨l₁, l₂, rfl, hall⟩ := ih h
        exact ⟨x :: l₁, l₂, rfl, by
          intro y hy
          rcases List.mem_cons.mp hy with rfl | hy'
          · exact Bool.of_not_eq_true hp
          · exact hall y hy'⟩

/-! ### Claim C4: idempotence of assignment -/

/-- C4: assigning the same address to the same service twice leaves the
assignment store — in-memory data and persisted file alike — in exactly the
state one call produces; the second call appends nothing and writes nothing. -/
theorem c4_assign_idempotent (db : DB) (s g : String) :
    assignGmailToService (assignGmailToService db s g) s g =
      assignGmailToService db s g := by
  apply assignGmailToService_of_mem _ _ _
    (if g ∈ getServiceGmails db s then getServiceGmails db s
     else getServiceGmails db s ++ [g])
    (dictGet_assignGmailToService_self db s g)
  split
  · next h => exact h
  · simp

/-! ### Claim C10: frame property of assignment -/

/-- C10: `assign(S, A)` leaves the alias pool (in memory and on disk)
untouched, leaves the entry of every key other than `lowercase(S)` untouched,
and at `lowercase(S)` at most appends `A` to the recorded sequence. -/
theorem c10_assign_frame (db : DB) (s g : String) :
    (assignGmailToService db s g).gmails = db.gmails ∧
    (assignGmailToService db s g).diskGmails = db.diskGmails ∧
    (∀ k, k ≠ pyLower s →
      dictGet (assignGmailToService db s g).servicesData k = dictGet db.servicesData k) ∧
    (∀ t, pyLower t ≠ pyLower s →
      getServiceGmails (assignGmailToService db s g) t = getServiceGmails db t) ∧
    (getServiceGmails (assignGmailToService db s g) s = getServiceGmails db s ∨
     getServiceGmails (assignGmailToService db s g) s = getServiceGmails db s ++ [g]) := by
  refine ⟨(assignGmailToService_gmails db s g).1, (assignGmailToService_gmails db s g).2,
    fun k hk => dictGet_assignGmailToService_ne db s g k hk,
    fun t ht => getServiceGmails_assign_ne db s g t ht, ?_⟩
  rw [getServiceGmails_assign_same db s g s rfl]
  split
  · exact Or.inl rfl
  · exact Or.inr rfl

/-- Witness for C10 at a concrete store: assigning `"c"` to service `"Y"`
changes neither the pool nor the entry of the unrelated service `"x"`. -/
theorem c10_assign_frame_witness :
    (assignGmailToService ⟨["a@gmail.com"], [("x", .list ["b"])], [], []⟩ "Y" "c").gmails =
      ["a@gmail.com"] ∧
    dictGet (assignGmailToService ⟨["a@gmail.com"], [("x", .list ["b"])], [], []⟩
        "Y" "c").servicesData "x" = some (.list ["b"]) := by
  refine ⟨(c10_assign_frame ⟨["a@gmail.com"], [("x", .list ["b"])], [], []⟩ "Y" "c").1, ?_⟩
  rw [(c10_assign_frame ⟨["a@gmail.com"], [("x", .list ["b"])], [], []⟩ "Y" "c").2.2.1 "x"
    (by decide)]
  decide

/-! ### Claim C2: the next unused alias for a service -/

/-- C2: `get_unused_gmail_for_service` returns the first pool element not in
the service's own recorded list — it never returns a member of that list, it
returns `none` exactly when the whole pool is recorded for this service, and
it may well return an alias recorded for a different service. -/
theorem c2_next_unused_spec (db : DB) (s : String) :
    ((∀ g, getUnusedGmailForService db s = some g →
        g ∉ getServiceGmails db s ∧
        ∃ l₁ l₂, db.gmails = l₁ ++ g :: l₂ ∧ ∀ g' ∈ l₁, g' ∈ getServiceGmails db s) ∧
     (getUnusedGmailForService db s = none ↔ ∀ g ∈ db.gmails, g ∈ getServiceGmails db s)) ∧
    (∃ db₀ s₀ t₀ g₀, pyLower s₀ ≠ pyLower t₀ ∧
      getUnusedGmailForService db₀ s₀ = some g₀ ∧ g₀ ∈ getServiceGmails db₀ t₀) := by
  have hun : getUnusedGmailForService db s =
      db.gmails.find? fun g => !((getServiceGmails db s).contains g) := rfl
  constructor
  · constructor
    · intro g hg
      rw [hun] at hg
      have hpg := List.find?_some hg
      refine ⟨by simpa using hpg, ?_⟩
      obtain ⟨l₁, l₂, heq, hall⟩ := find?_eq_some_split _ _ _ hg
      refine ⟨l₁, l₂, heq, fun g' hg' => ?_⟩
      have h2 := hall g' hg'
      simpa using h2
    · rw [hun]
      constructor
      · intro hnone g hgmem
        have h3 := List.find?_eq_none.mp hnone g hgmem
        simpa using h3
      · intro hall
        refine List.find?_eq_none.mpr fun x hx => ?_
        simpa using hall x hx
  · exact ⟨⟨["a"], [("t", .list ["a"])], [], []⟩, "s", "t", "a", by decide, by decide, by decide⟩

/-- Witness for C2 at a concrete store: with pool `["a", "b"]` and `"a"`
already recorded for `"s"`, the next unused alias for `"s"` is `"b"`, which is
not in the service's list and is preceded only by recorded aliases. -/
theorem c2_next_unused_spec_witness :
    "b" ∉ getServiceGmails ⟨["a", "b"], [("s", .list ["a"])], [], []⟩ "s" ∧
    ∃ l₁ l₂, (⟨["a", "b"], [("s", .list ["a"])], [], []⟩ : DB).gmails = l₁ ++ "b" :: l₂ ∧
      ∀ g' ∈ l₁, g' ∈ getServiceGmails ⟨["a", "b"], [("s", .list ["a"])], [], []⟩ "s" :=
  (c2_next_unused_spec ⟨["a", "b"], [("s", .list ["a"])], [], []⟩ "s").1.1 "b" (by decide)

/-! ### Reduction lemmas for `check_and_assign_gmail` -/

theorem checkAndAssignGmail_of_latest_none (db : DB) (s : String)
    (h : getLatestServiceGmail db s = none) :
    checkAndAssignGmail db s = checkAndAssignFresh db (pyLower s) := by
  unfold checkAndAssignGmail
  simp only [getLatestServiceGmail_pyLower, h]

theorem checkAndAssignGmail_of_latest_some (db : DB) (s g : String)
    (h : getLatestServiceGmail db s = some g) (hg : g ≠ "") :
    checkAndAssignGmail db s = (db, true, g) := by
  unfold checkAndAssignGmail
  simp only [getLatestServiceGmail_pyLower, h]
  rw [if_pos hg]

theorem checkAndAssignFresh_of_some (db : DB) (sn g : String)
    (hu : getUnusedGmailForService db sn = some g) (hg : g ≠ "") :
    checkAndAssignFresh db sn = (assignGmailToService db sn g, false, g) := by
  unfold checkAndAssignFresh
  simp only [hu]
  rw [if_pos hg]

theorem checkAndAssignFresh_of_none (db : DB) (sn : String)
    (hu : getUnusedGmailForService db sn = none) :
    checkAndAssignFresh db sn = (db, false, noGmailSentinel) := by
  unfold checkAndAssignFresh
  simp only [hu]

/-! ### Claim C3: first and second registration of an unbound service -/

/-- C3: for an unbound service with at least one unrecorded (and, as every
pool the program builds, nonempty-string) pool alias, `check_and_assign_gmail`
returns `(False, X)` with `X` the first unused alias, records `X` for the
service, and an immediately repeated call returns `(True, X)` without any
further mutation. -/
theorem c3_check_then_reuse (db : DB) (s : String)
    (hlat : getLatestServiceGmail db s = none)
    (hfree : ∃ g ∈ db.gmails, g ∉ getServiceGmails db s)
    (hpool : "" ∉ db.gmails) :
    ∃ X, getUnusedGmailForService db s = some X ∧
      checkAndAssignGmail db s = (assignGmailToService db s X, false, X) ∧
      getServiceGmails (assignGmailToService db s X) s = getServiceGmails db s ++ [X] ∧
      checkAndAssignGmail (assignGmailToService db s X) s =
        (assignGmailToService db s X, true, X) := by
  have hun : getUnusedGmailForService db s =
      db.gmails.find? fun g => !((getServiceGmails db s).contains g) := rfl
  obtain ⟨g0, hg0mem, hg0not⟩ := hfree
  cases hX : getUnusedGmailForService db s with
  | none =>
      exfalso
      rw [hun] at hX
      have h1 := List.find?_eq_none.mp hX g0 hg0mem
      simp at h1
      exact hg0not h1
  | some X =>
      have hXmem : X ∈ db.gmails := by
        rw [hun] at hX
        exact List.mem_of_find?_eq_some hX
      have hXne : X ≠ "" := fun he => hpool (he ▸ hXmem)
      have hXnot : X ∉ getServiceGmails db s := by
        rw [hun] at hX
        have := List.find?_some hX
        simpa using this
      have hrec : getServiceGmails (assignGmailToService db s X) s =
          getServiceGmails db s ++ [X] := by
        rw [getServiceGmails_assign_same db s X s rfl, if_neg hXnot]
      have hfirst : checkAndAssignGmail db s = (assignGmailToService db s X, false, X) := by
        rw [checkAndAssignGmail_of_latest_none db s hlat,
          checkAndAssignFresh_of_some db (pyLower s) X
            (by rw [getUnusedGmailForService_pyLower]; exact hX) hXne,
          assignGmailToService_pyLower]
      have hlat2 : getLatestServiceGmail (assignGmailToService db s X) s = some X := by
        unfold getLatestServiceGmail
        rw [hrec]
        exact List.getLast?_concat _
      exact ⟨X, rfl, hfirst, hrec,
        checkAndAssignGmail_of_latest_some _ s X hlat2 hXne⟩

/-- Witness for C3: a concrete unbound service and one-alias pool. -/
theorem c3_check_then_reuse_witness :
    ∃ X, getUnusedGmailForService ⟨["a@gmail.com"], [], [], []⟩ "svc" = some X ∧
      checkAndAssignGmail ⟨["a@gmail.com"], [], [], []⟩ "svc" =
        (assignGmailToService ⟨["a@gmail.com"], [], [], []⟩ "svc" X, false, X) ∧
      getServiceGmails (assignGmailToService ⟨["a@gmail.com"], [], [], []⟩ "svc" X) "svc" =
        getServiceGmails (⟨["a@gmail.com"], [], [], []⟩ : DB) "svc" ++ [X] ∧
      checkAndAssignGmail (assignGmailToService ⟨["a@gmail.com"], [], [], []⟩ "svc" X) "svc" =
        (assignGmailToService ⟨["a@gmail.com"], [], [], []⟩ "svc" X, true, X) :=
  c3_check_then_reuse ⟨["a@gmail.com"], [], [], []⟩ "svc" (by decide) (by decide) (by decide)

/-! ### Every generated address ends in the fixed domain -/

theorem mem_generatedEmails_endsWith (e : String)
    (he : pyEndsWith e "@gmail.com" = true) (g : String)
    (hg : g ∈ generatedEmails e) : pyEndsWith g "@gmail.com" = true := by
  unfold generatedEmails at hg
  rcases List.mem_cons.mp hg with rfl | hflat
  · exact he
  · obtain ⟨i, _, hmap⟩ := List.mem_flatMap.mp hflat
    obtain ⟨pos, _, rfl⟩ := List.mem_map.mp hmap
    unfold pyEndsWith
    exact List.isSuffixOf_iff_suffix.mpr ⟨applyDots (localPart e) pos, rfl⟩

theorem noGmailSentinel_not_generated (e : String)
    (he : pyEndsWith e "@gmail.com" = true) :
    noGmailSentinel ∉ generatedEmails e := fun hmem =>
  absurd (mem_generatedEmails_endsWith e he _ hmem) (by decide)

/-! ### Claim C8: per-service exhaustion -/

/-- C8: when a service has no current binding and every pool alias is already
recorded for it (in particular when the pool is empty), `check_and_assign_gmail`
returns `(False, sentinel)` and changes nothing — no memory mutation, no file
write; the sentinel is distinct from every alias a successful generation can
put in the pool. -/
theorem c8_exhausted_sentinel (db : DB) (s : String)
    (hlat : getLatestServiceGmail db s = none)
    (hexh : ∀ g ∈ db.gmails, g ∈ getServiceGmails db s) :
    checkAndAssignGmail db s = (db, false, noGmailSentinel) ∧
    ∀ db₂ e n, (generateDomainNames db₂ e).1 = .ok n →
      noGmailSentinel ∉ (generateDomainNames db₂ e).2.gmails := by
  constructor
  · have hun : getUnusedGmailForService db s =
        db.gmails.find? fun g => !((getServiceGmails db s).contains g) := rfl
    have hnone : getUnusedGmailForService db (pyLower s) = none := by
      rw [getUnusedGmailForService_pyLower, hun]
      refine List.find?_eq_none.mpr fun x hx => ?_
      simpa using hexh x hx
    rw [checkAndAssignGmail_of_latest_none db s hlat,
      checkAndAssignFresh_of_none db (pyLower s) hnone]
  · intro db₂ e n hok
    unfold generateDomainNames at hok ⊢
    by_cases hend : pyEndsWith e "@gmail.com" = true
    · rw [if_pos hend] at hok ⊢
      exact noGmailSentinel_not_generated e hend
    · rw [if_neg hend] at hok
      simp at hok

/-- Witness for C8: the empty pool exhausts every service at once. -/
theorem c8_exhausted_sentinel_witness :
    checkAndAssignGmail ⟨[], [], [], []⟩ "s" = (⟨[], [], [], []⟩, false, noGmailSentinel) :=
  (c8_exhausted_sentinel ⟨[], [], [], []⟩ "s" (by decide)
    (fun g hg => absurd hg (List.not_mem_nil g))).1

/-! ### Claim C5: regeneration clears every assignment -/

/-- C5: after a successful `generate_domain_names`, the assignment record is
empty in memory and on disk, and every service reads back an empty list —
whatever was assigned before. -/
theorem c5_generate_clears (db : DB) (e : String) (n : Nat) (db' : DB)
    (h : generateDomainNames db e = (.ok n, db')) :
    db'.servicesData = [] ∧ db'.diskServices = [] ∧
    ∀ s, getServiceGmails db' s = [] := by
  unfold generateDomainNames at h
  by_cases hend : pyEndsWith e "@gmail.com" = true
  · rw [if_pos hend, Prod.mk.injEq] at h
    obtain ⟨-, h2⟩ := h
    subst h2
    exact ⟨rfl, rfl, fun s => rfl⟩
  · rw [if_neg hend, Prod.mk.injEq] at h
    exact absurd h.1 (by simp)

/-- Witness for C5: regenerating over a store with an existing binding
empties the previously bound service's list. -/
theorem c5_generate_clears_witness :
    getServiceGmails
      (generateDomainNames ⟨["x"], [("s", .list ["x"])], ["x"], [("s", .list ["x"])]⟩
        "ab@gmail.com").2 "s" = [] :=
  (c5_generate_clears ⟨["x"], [("s", .list ["x"])], ["x"], [("s", .list ["x"])]⟩
    "ab@gmail.com" 2
    (generateDomainNames ⟨["x"], [("s", .list ["x"])], ["x"], [("s", .list ["x"])]⟩
      "ab@gmail.com").2 (by rfl)).2.2 "s"

/-! ### Claim C7: seed validation -/

/-- C7: `generate_domain_names` fails with the invalid-address error exactly
when the seed does not end in `@gmail.com`, and a failing call leaves the
whole state — pool, record, both files — untouched. -/
theorem c7_invalid_seed (db : DB) (e : String) :
    ((generateDomainNames db e).1 = .error "Почта должна быть Gmail (@gmail.com)" ↔
      pyEndsWith e "@gmail.com" = false) ∧
    (pyEndsWith e "@gmail.com" = false → (generateDomainNames db e).2 = db) := by
  unfold generateDomainNames
  by_cases hend : pyEndsWith e "@gmail.com" = true
  · rw [if_pos hend]
    simp [hend]
  · have hf : pyEndsWith e "@gmail.com" = false := by
      simpa using hend
    rw [if_neg hend]
    simp [hf]

/-- Witness for C7: a rejected seed, state returned unchanged. -/
theorem c7_invalid_seed_witness :
    (generateDomainNames ⟨["p"], [("s", .list ["p"])], [], []⟩ "user@mail.ru").1 =
      .error "Почта должна быть Gmail (@gmail.com)" ∧
    (generateDomainNames ⟨["p"], [("s", .list ["p"])], [], []⟩ "user@mail.ru").2 =
      ⟨["p"], [("s", .list ["p"])], [], []⟩ :=
  ⟨(c7_invalid_seed ⟨["p"], [("s", .list ["p"])], [], []⟩ "user@mail.ru").1.mpr (by decide),
   (c7_invalid_seed ⟨["p"], [("s", .list ["p"])], [], []⟩ "user@mail.ru").2 (by decide)⟩

/-! ### Claim C9: legacy single-string records -/

theorem dictGet_map_migrate (d : ServicesData) (k : String) :
    dictGet (d.map fun kv => (kv.1, migrateVal kv.2)) k = (dictGet d k).map migrateVal := by
  induction d with
  | nil => rfl
  | cons kv rest ih =>
      obtain ⟨k0, v0⟩ := kv
      by_cases h : k0 = k <;> simp [dictGet, h, ih]

theorem valEmails_map_migrate (o : Option SVal) :
    valEmails (o.map migrateVal) = valEmails o := by
  cases o with
  | none => rfl
  | some v => cases v <;> rfl

theorem migrateDataIfNeeded_servicesData (db : DB) :
    (migrateDataIfNeeded db).servicesData =
      db.servicesData.map fun kv => (kv.1, migrateVal kv.2) := by
  unfold migrateDataIfNeeded
  split <;> rfl

theorem getServiceGmails_migrate (db : DB) (s : String) :
    getServiceGmails (migrateDataIfNeeded db) s = getServiceGmails db s := by
  unfold getServiceGmails
  rw [migrateDataIfNeeded_servicesData, dictGet_map_migrate, valEmails_map_migrate]

/-- C9: loading-time migration turns every legacy bare-string value into the
one-element list and — whenever something was legacy — immediately persists
the normalized record; a legacy value and its migrated form are
indistinguishable through `get_service_gmails`, `get_latest_service_gmail`
and `assign_gmail_to_service`. -/
theorem c9_legacy_migration (db : DB) :
    (∀ k, dictGet (migrateDataIfNeeded db).servicesData k =
      (dictGet db.servicesData k).map migrateVal) ∧
    ((db.servicesData.any fun kv => isLegacy kv.2) = true →
      (migrateDataIfNeeded db).diskServices = (migrateDataIfNeeded db).servicesData) ∧
    (∀ s, getServiceGmails (migrateDataIfNeeded db) s = getServiceGmails db s) ∧
    (∀ s, getLatestServiceGmail (migrateDataIfNeeded db) s = getLatestServiceGmail db s) ∧
    (∀ s g t, getServiceGmails (assignGmailToService (migrateDataIfNeeded db) s g) t =
      getServiceGmails (assignGmailToService db s g) t) := by
  refine ⟨fun k => by rw [migrateDataIfNeeded_servicesData, dictGet_map_migrate], ?_,
    getServiceGmails_migrate db, ?_, ?_⟩
  · intro h
    unfold migrateDataIfNeeded
    rw [if_pos h]
  · intro s
    unfold getLatestServiceGmail
    rw [getServiceGmails_migrate]
  · intro s g t
    by_cases hts : pyLower t = pyLower s
    · rw [getServiceGmails_assign_same _ _ _ _ hts, getServiceGmails_assign_same _ _ _ _ hts,
        getServiceGmails_migrate]
    · rw [getServiceGmails_assign_ne _ _ _ _ hts, getServiceGmails_assign_ne _ _ _ _ hts,
        getServiceGmails_migrate]

/-- Witness for C9 on a concrete legacy record. -/
theorem c9_legacy_migration_witness :
    dictGet (migrateDataIfNeeded ⟨["a"], [("s", .str "m")], [], [("s", .str "m")]⟩).servicesData
        "s" = some (.list ["m"]) ∧
    (migrateDataIfNeeded ⟨["a"], [("s", .str "m")], [], [("s", .str "m")]⟩).diskServices =
      (migrateDataIfNeeded ⟨["a"], [("s", .str "m")], [], [("s", .str "m")]⟩).servicesData ∧
    getServiceGmails (migrateDataIfNeeded ⟨["a"], [("s", .str "m")], [], [("s", .str "m")]⟩)
        "s" = ["m"] := by
  refine ⟨?_, (c9_legacy_migration ⟨["a"], [("s", .str "m")], [], [("s", .str "m")]⟩).2.1
    (by decide), ?_⟩
  · rw [(c9_legacy_migration ⟨["a"], [("s", .str "m")], [], [("s", .str "m")]⟩).1 "s"]
    decide
  · rw [(c9_legacy_migration ⟨["a"], [("s", .str "m")], [], [("s", .str "m")]⟩).2.2.1 "s"]
    decide

/-! ### Claim C6: the per-service no-duplicates invariant -/

/-- States reachable from an empty assignment record through the engine
operations: assignment, registration, pool regeneration, legacy migration. -/
inductive Reach : DB → Prop where
  | empty (db : DB) : db.servicesData = [] → Reach db
  | assign (db : DB) (s g : String) : Reach db → Reach (assignGmailToService db s g)
  | check (db : DB) (s : String) : Reach db → Reach (checkAndAssignGmail db s).1
  | gen (db : DB) (e : String) : Reach db → Reach (generateDomainNames db e).2
  | migrate (db : DB) : Reach db → Reach (migrateDataIfNeeded db)

theorem checkAndAssignFresh_fst_cases (db : DB) (sn : String) :
    (checkAndAssignFresh db sn).1 = db ∨
    ∃ g, (checkAndAssignFresh db sn).1 = assignGmailToService db sn g := by
  unfold checkAndAssignFresh
  cases hu : getUnusedGmailForService db sn with
  | none => exact Or.inl rfl
  | some g =>
      dsimp only
      by_cases hg : g ≠ ""
      · exact Or.inr ⟨g, by rw [if_pos hg]⟩
      · exact Or.inl (by rw [if_neg hg])

theorem checkAndAssignGmail_of_latest_empty (db : DB) (s : String)
    (h : getLatestServiceGmail db s = some "") :
    checkAndAssignGmail db s = checkAndAssignFresh db (pyLower s) := by
  unfold checkAndAssignGmail
  simp only [getLatestServiceGmail_pyLower, h]
  rw [if_neg (by simp)]

theorem checkAndAssignGmail_fst_cases (db : DB) (s : String) :
    (checkAndAssignGmail db s).1 = db ∨
    ∃ g, (checkAndAssignGmail db s).1 = assignGmailToService db (pyLower s) g := by
  cases hl : getLatestServiceGmail db s with
  | none =>
      rw [checkAndAssignGmail_of_latest_none db s hl]
      exact checkAndAssignFresh_fst_cases db (pyLower s)
  | some g =>
      by_cases hg : g ≠ ""
      · rw [checkAndAssignGmail_of_latest_some db s g hl hg]
        exact Or.inl rfl
      · have hge : g = "" := not_not.mp hg
        subst hge
        rw [checkAndAssignGmail_of_latest_empty db s hl]
        exact checkAndAssignFresh_fst_cases db (pyLower s)

theorem servicesNodup_assign (db : DB) (s g : String)
    (h : ∀ k, (valEmails (dictGet db.servicesData k)).Nodup) :
    ∀ k, (valEmails (dictGet (assignGmailToService db s g).servicesData k)).Nodup := by
  intro k
  by_cases hk : k = pyLower s
  · subst hk
    rw [dictGet_assignGmailToService_self db s g]
    show (if g ∈ getServiceGmails db s then getServiceGmails db s
          else getServiceGmails db s ++ [g]).Nodup
    split
    · exact h (pyLower s)
    · next hmem =>
        rw [← List.concat_eq_append]
        exact List.Nodup.concat hmem (h (pyLower s))
  · rw [dictGet_assignGmailToService_ne db s g k hk]
    exact h k

/-- C6: in every state reachable from an empty record, no service's sequence
repeats an alias; the same alias may nevertheless be recorded for two
different services. -/
theorem c6_nodup_invariant :
    (∀ db, Reach db → ∀ k, (valEmails (dictGet db.servicesData k)).Nodup) ∧
    (∃ db s t g, Reach db ∧ pyLower s ≠ pyLower t ∧
      g ∈ getServiceGmails db s ∧ g ∈ getServiceGmails db t) := by
  constructor
  · intro db hreach
    induction hreach with
    | empty db h =>
        intro k
        rw [h]
        exact List.nodup_nil
    | assign db s g hr ih => exact servicesNodup_assign db s g ih
    | check db s hr ih =>
        rcases checkAndAssignGmail_fst_cases db s with h | ⟨g, h⟩
        · rw [h]
          exact ih
        · rw [h]
          exact servicesNodup_assign db (pyLower s) g ih
    | gen db e hr ih =>
        unfold generateDomainNames
        by_cases hend : pyEndsWith e "@gmail.com" = true
        · rw [if_pos hend]
          intro k
          exact List.nodup_nil
        · rw [if_neg hend]
          exact ih
    | migrate db hr ih =>
        intro k
        rw [migrateDataIfNeeded_servicesData, dictGet_map_migrate, valEmails_map_migrate]
        exact ih k
  · refine ⟨assignGmailToService (assignGmailToService ⟨["a"], [], [], []⟩ "s" "a") "t" "a",
      "s", "t", "a", ?_, by decide, by decide, by decide⟩
    exact Reach.assign _ "t" "a" (Reach.assign _ "s" "a" (Reach.empty _ rfl))

/-- Witness for C6: the invariant read off at a concrete reachable state. -/
theorem c6_nodup_invariant_witness :
    (valEmails (dictGet (assignGmailToService ⟨["x"], [], [], []⟩ "s" "x").servicesData
      "s")).Nodup :=
  c6_nodup_invariant.1 (assignGmailToService ⟨["x"], [], [], []⟩ "s" "x")
    (Reach.assign _ "s" "x" (Reach.empty ⟨["x"], [], [], []⟩ rfl)) "s"

/-! ### Combinatorial facts about `combinations`

`combinations k xs` is the model of `itertools.combinations(xs, k)`:
its members are exactly the length-`k` sublists of `xs`, without
repetition, and — for an increasing `xs` — enumerated in lexicographic
order. -/

theorem mem_combinations (xs : List Nat) :
    ∀ (k : Nat) (c : List Nat), c ∈ combinations k xs →
      c.length = k ∧ c.Sublist xs := by
  induction xs with
  | nil =>
      intro k c hc
      cases k with
      | zero =>
          simp [combinations] at hc
          subst hc
          exact ⟨rfl, List.Sublist.refl _⟩
      | succ k => simp [combinations] at hc
  | cons x xs ih =>
      intro k c hc
      cases k with
      | zero =>
          simp [combinations] at hc
          subst hc
          exact ⟨rfl, List.nil_sublist _⟩
      | succ k =>
          rw [combinations, List.mem_append] at hc
          rcases hc with hc | hc
          · obtain ⟨c', hc', rfl⟩ := List.mem_map.mp hc
            obtain ⟨hlen, hsub⟩ := ih k c' hc'
            exact ⟨by simp [hlen], List.Sublist.cons₂ x hsub⟩
          · obtain ⟨hlen, hsub⟩ := ih (k + 1) c hc
            exact ⟨hlen, hsub.cons x⟩

theorem length_combinations (xs : List Nat) :
    ∀ k : Nat, (combinations k xs).length = xs.length.choose k := by
  induction xs with
  | nil =>
      intro k
      cases k with
      | zero => rfl
      | succ k => rfl
  | cons x xs ih =>
      intro k
      cases k with
      | zero => rfl
      | succ k =>
          rw [combinations, List.length_append, List.length_map, ih k, ih (k + 1)]
          simp [Nat.choose_succ_succ, Nat.add_comm]

theorem nodup_combinations (xs : List Nat) (hxs : xs.Nodup) :
    ∀ k : Nat, (combinations k xs).Nodup := by
  induction xs with
  | nil =>
      intro k
      cases k with
      | zero => simp [combinations]
      | succ k => simp [combinations]
  | cons x xs ih =>
      intro k
      have hx : x ∉ xs := (List.nodup_cons.mp hxs).1
      have hxs' : xs.Nodup := (List.nodup_cons.mp hxs).2
      cases k with
      | zero => simp [combinations]
      | succ k =>
          rw [combinations]
          refine List.Nodup.append ?_ (ih hxs' (k + 1)) ?_
          · refine (ih hxs' k).map ?_
            intro a b hab
            injection hab
          · intro c hc1 hc2
            obtain ⟨c', _, rfl⟩ := List.mem_map.mp hc1
            have hsub := (mem_combinations xs (k + 1) _ hc2).2
            exact hx (hsub.subset (List.mem_cons_self x c'))

theorem pairwise_lex_combinations (xs : List Nat) (hxs : xs.Pairwise (· < ·)) :
    ∀ k : Nat, (combinations k xs).Pairwise (List.Lex (· < ·)) := by
  induction xs with
  | nil =>
      intro k
      cases k with
      | zero => simp [combinations]
      | succ k => simp [combinations]
  | cons x xs ih =>
      intro k
      have hlt : ∀ y ∈ xs, x < y := fun y hy => (List.pairwise_cons.mp hxs).1 y hy
      have hxs' : xs.Pairwise (· < ·) := (List.pairwise_cons.mp hxs).2
      cases k with
      | zero => simp [combinations]
      | succ k =>
          rw [combinations]
          rw [List.pairwise_append]
          refine ⟨List.Pairwise.map _ (fun a b hab => List.Lex.cons hab) (ih hxs' k),
            ih hxs' (k + 1), ?_⟩
          intro c1 hc1 c2 hc2
          obtain ⟨c', _, rfl⟩ := List.mem_map.mp hc1
          obtain ⟨hlen, hsub⟩ := mem_combinations xs (k + 1) c2 hc2
          cases c2 with
          | nil => simp at hlen
          | cons y t =>
              exact List.Lex.rel (hlt y (hsub.subset (List.mem_cons_self y t)))

/-! ### The slicing loop inserts exactly at the chosen boundaries -/

theorem dotsAt_nil : ∀ (i : Nat) (l : List Char), dotsAt [] i l = l := by
  intro i l
  induction l generalizing i with
  | nil => rfl
  | cons x xs ih => simp [dotsAt, ih]

theorem dotsAt_congr : ∀ (l : List Char) (i : Nat) (c₁ c₂ : List Nat),
    (∀ j, i ≤ j → (j ∈ c₁ ↔ j ∈ c₂)) → dotsAt c₁ i l = dotsAt c₂ i l := by
  intro l
  induction l with
  | nil => intro i c₁ c₂ h; rfl
  | cons x xs ih =>
      intro i c₁ c₂ h
      have hnext : ∀ j, i + 1 ≤ j → (j ∈ c₁ ↔ j ∈ c₂) := fun j hj => h j (by omega)
      by_cases hi : i ∈ c₁
      · have hi2 : i ∈ c₂ := (h i (Nat.le_refl i)).mp hi
        simp [dotsAt, hi, hi2, ih (i + 1) c₁ c₂ hnext]
      · have hi2 : i ∉ c₂ := fun hmem => hi ((h i (Nat.le_refl i)).mpr hmem)
        simp [dotsAt, hi, hi2, ih (i + 1) c₁ c₂ hnext]

theorem dotsAt_cons_lt (l : List Char) (i p : Nat) (c : List Nat) (hp : p < i) :
    dotsAt (p :: c) i l = dotsAt c i l := by
  refine dotsAt_congr l i (p :: c) c fun j hj => ?_
  have hjp : j ≠ p := by omega
  simp [hjp]

theorem insertDotAt_zero (l : List Char) : insertDotAt l 0 = '.' :: l := by
  simp [insertDotAt]

theorem insertDotAt_cons (x : Char) (t : List Char) (m : Nat) :
    insertDotAt (x :: t) (m + 1) = x :: insertDotAt t m := by
  simp [insertDotAt]

theorem insertDotAt_dotsAt : ∀ (l : List Char) (i p : Nat) (c : List Nat),
    i ≤ p → p < i + l.length → (∀ j ∈ c, p < j) →
    insertDotAt (dotsAt c i l) (p - i) = dotsAt (p :: c) i l := by
  intro l
  induction l with
  | nil =>
      intro i p c h1 h2 h3
      simp at h2
      omega
  | cons x xs ih =>
      intro i p c h1 h2 h3
      have hic : i ∉ c := fun hmem => by
        have := h3 i hmem
        omega
      by_cases hip : i = p
      · subst hip
        have hsub : i - i = 0 := by omega
        rw [hsub]
        simp only [dotsAt, if_neg hic, insertDotAt_zero]
        have hicc : i ∈ i :: c := List.mem_cons_self i c
        simp only [if_pos hicc]
        rw [dotsAt_cons_lt xs (i + 1) i c (by omega)]
      · have hlt : i < p := by omega
        have hsub : p - i = (p - (i + 1)) + 1 := by omega
        have hipc : i ∉ p :: c := by
          simp only [List.mem_cons]
          rintro (h | h)
          · omega
          · exact hic h
        rw [hsub]
        simp only [dotsAt, if_neg hic, if_neg hipc, insertDotAt_cons]
        rw [ih (i + 1) p c (by omega) (by simp at h2 ⊢; omega) h3]

/-! ### `sorted(pos, reverse=True)` on an increasing tuple is its reversal -/

theorem insertDescend_of_forall_lt (p : Nat) :
    ∀ l : List Nat, (∀ b ∈ l, p < b) → insertDescend p l = l ++ [p] := by
  intro l
  induction l with
  | nil => intro h; rfl
  | cons b bs ih =>
      intro h
      have hb : p < b := h b (List.mem_cons_self b bs)
      rw [insertDescend, if_neg (by omega)]
      rw [ih fun b' hb' => h b' (List.mem_cons_of_mem b hb')]
      rfl

theorem pySortedDesc_of_pairwise (l : List Nat) (h : l.Pairwise (· < ·)) :
    pySortedDesc l = l.reverse := by
  induction l with
  | nil => rfl
  | cons p rest ih =>
      have hhd : ∀ b ∈ rest, p < b := (List.pairwise_cons.mp h).1
      have htl : rest.Pairwise (· < ·) := (List.pairwise_cons.mp h).2
      show insertDescend p (pySortedDesc rest) = (p :: rest).reverse
      rw [ih htl, insertDescend_of_forall_lt p rest.reverse
        (fun b hb => hhd b (List.mem_reverse.mp hb)), List.reverse_cons]

theorem applyDots_eq_dotsAt (l : List Char) :
    ∀ pos : List Nat, pos.Pairwise (· < ·) → (∀ q ∈ pos, q < l.length) →
    applyDots l pos = dotsAt pos 0 l := by
  intro pos
  induction pos with
  | nil =>
      intro _ _
      show List.foldl insertDotAt l (pySortedDesc []) = dotsAt [] 0 l
      rw [dotsAt_nil]
      rfl
  | cons p rest ih =>
      intro hpw hq
      have hhd : ∀ b ∈ rest, p < b := (List.pairwise_cons.mp hpw).1
      have htl : rest.Pairwise (· < ·) := (List.pairwise_cons.mp hpw).2
      show List.foldl insertDotAt l (pySortedDesc (p :: rest)) = dotsAt (p :: rest) 0 l
      rw [pySortedDesc_of_pairwise _ hpw, List.reverse_cons, List.foldl_append]
      have hrw : List.foldl insertDotAt l rest.reverse = dotsAt rest 0 l := by
        have := ih htl fun q hq' => hq q (List.mem_cons_of_mem p hq')
        rwa [show applyDots l rest = List.foldl insertDotAt l rest.reverse from by
          rw [applyDots, pySortedDesc_of_pairwise _ htl]] at this
      rw [hrw]
      show insertDotAt (dotsAt rest 0 l) p = dotsAt (p :: rest) 0 l
      have := insertDotAt_dotsAt l 0 p rest (Nat.zero_le p)
        (by simpa using hq p (List.mem_cons_self p rest)) hhd
      simpa using this

/-! ### The generated pool equals its specification-side description -/

theorem flatMap_congr_mem {α β : Type} (l : List α) (f g : α → List β)
    (h : ∀ a ∈ l, f a = g a) : l.flatMap f = l.flatMap g := by
  induction l with
  | nil => rfl
  | cons x xs ih =>
      rw [List.flatMap_cons, List.flatMap_cons, h x (List.mem_cons_self x xs),
        ih fun a ha => h a (List.mem_cons_of_mem x ha)]

theorem mem_boundaries {n q : Nat} (h : q ∈ boundaries n) : 1 ≤ q ∧ q < n := by
  unfold boundaries at h
  have := List.mem_range'_1.mp h
  omega

theorem pairwise_boundaries (n : Nat) : (boundaries n).Pairwise (· < ·) :=
  List.pairwise_lt_range' 1 (n - 1)

theorem nodup_boundaries (n : Nat) : (boundaries n).Nodup :=
  List.nodup_range' 1 (n - 1)

theorem combo_facts {n i : Nat} {pos : List Nat}
    (h : pos ∈ combinations i (boundaries n)) :
    pos.length = i ∧ pos.Pairwise (· < ·) ∧ ∀ q ∈ pos, 1 ≤ q ∧ q < n := by
  obtain ⟨hlen, hsub⟩ := mem_combinations (boundaries n) i pos h
  exact ⟨hlen, (pairwise_boundaries n).sublist hsub,
    fun q hq => mem_boundaries (hsub.subset hq)⟩

theorem generatedEmails_eq_specPool (e : String) :
    generatedEmails e = specPool e := by
  show e :: (boundaries (localPart e).length).flatMap
      (fun i => (combinations i (boundaries (localPart e).length)).map fun pos =>
        String.mk (applyDots (localPart e) pos ++ gmailSuffix)) =
    e :: (boundaries (localPart e).length).flatMap
      (fun i => (combinations i (boundaries (localPart e).length)).map fun pos =>
        String.mk (dotsAt pos 0 (localPart e) ++ gmailSuffix))
  refine congrArg (e :: ·) ?_
  refine flatMap_congr_mem _ _ _ fun i _ => ?_
  refine List.map_congr_left fun pos hpos => ?_
  obtain ⟨-, hpw, hbnd⟩ := combo_facts hpos
  rw [applyDots_eq_dotsAt (localPart e) pos hpw fun q hq => (hbnd q hq).2]

/-! ### Distinctness of the generated pool (dot-free local part) -/

theorem mem_dotsAt : ∀ (l : List Char) (i : Nat) (c : List Nat) (a : Char),
    a ∈ dotsAt c i l → a ∈ l ∨ a = '.' := by
  intro l
  induction l with
  | nil => intro i c a ha; simp [dotsAt] at ha
  | cons x xs ih =>
      intro i c a ha
      by_cases hi : i ∈ c
      · simp only [dotsAt, if_pos hi, List.mem_cons] at ha
        rcases ha with rfl | rfl | ha
        · exact Or.inr rfl
        · exact Or.inl (List.mem_cons_self _ _)
        · rcases ih (i + 1) c a ha with h | h
          · exact Or.inl (List.mem_cons_of_mem x h)
          · exact Or.inr h
      · simp only [dotsAt, if_neg hi, List.mem_cons] at ha
        rcases ha with rfl | ha
        · exact Or.inl (List.mem_cons_self _ _)
        · rcases ih (i + 1) c a ha with h | h
          · exact Or.inl (List.mem_cons_of_mem x h)
          · exact Or.inr h

theorem dot_mem_dotsAt : ∀ (l : List Char) (i q : Nat) (c : List Nat),
    q ∈ c → i ≤ q → q < i + l.length → '.' ∈ dotsAt c i l := by
  intro l
  induction l with
  | nil =>
      intro i q c _ h1 h2
      simp at h2
      omega
  | cons x xs ih =>
      intro i q c hq h1 h2
      by_cases hi : i ∈ c
      · simp [dotsAt, if_pos hi]
      · have hne : i ≠ q := fun he => hi (he ▸ hq)
        simp only [dotsAt, if_neg hi, List.mem_cons]
        refine Or.inr (ih (i + 1) q c hq (by omega) (by simp at h2 ⊢; omega))

theorem dotsAt_mem_iff : ∀ (l : List Char) (i : Nat) (c₁ c₂ : List Nat),
    '.' ∉ l → (∀ j ∈ c₁, j < i + l.length) → (∀ j ∈ c₂, j < i + l.length) →
    dotsAt c₁ i l = dotsAt c₂ i l → ∀ j, i ≤ j → (j ∈ c₁ ↔ j ∈ c₂) := by
  intro l
  induction l with
  | nil =>
      intro i c₁ c₂ _ hb1 hb2 _ j hj
      simp only [List.length_nil, Nat.add_zero] at hb1 hb2
      constructor
      · intro hmem
        exact absurd (hb1 j hmem) (by omega)
      · intro hmem
        exact absurd (hb2 j hmem) (by omega)
  | cons x xs ih =>
      intro i c₁ c₂ hdot hb1 hb2 heq j hj
      have hxdot : x ≠ '.' := fun hx => hdot (hx ▸ List.mem_cons_self x xs)
      have hdot' : '.' ∉ xs := fun hmem => hdot (List.mem_cons_of_mem x hmem)
      have hb1' : ∀ j ∈ c₁, j < (i + 1) + xs.length := by
        intro j hjm
        have := hb1 j hjm
        simp at this ⊢
        omega
      have hb2' : ∀ j ∈ c₂, j < (i + 1) + xs.length := by
        intro j hjm
        have := hb2 j hjm
        simp at this ⊢
        omega
      by_cases h1 : i ∈ c₁ <;> by_cases h2 : i ∈ c₂
      · simp only [dotsAt, if_pos h1, if_pos h2, List.cons.injEq] at heq
        have htail := ih (i + 1) c₁ c₂ hdot' hb1' hb2' heq.2.2
        rcases Nat.eq_or_lt_of_le hj with rfl | hlt
        · simp [h1, h2]
        · exact htail j hlt
      · simp only [dotsAt, if_pos h1, if_neg h2, List.cons.injEq] at heq
        exact absurd heq.1.symm hxdot
      · simp only [dotsAt, if_neg h1, if_pos h2, List.cons.injEq] at heq
        exact absurd heq.1 hxdot
      · simp only [dotsAt, if_neg h1, if_neg h2, List.cons.injEq] at heq
        have htail := ih (i + 1) c₁ c₂ hdot' hb1' hb2' heq.2
        rcases Nat.eq_or_lt_of_le hj with rfl | hlt
        · simp [h1, h2]
        · exact htail j hlt

theorem eq_of_pairwise_lt_of_mem_iff (c₁ c₂ : List Nat)
    (h1 : c₁.Pairwise (· < ·)) (h2 : c₂.Pairwise (· < ·))
    (hiff : ∀ j, j ∈ c₁ ↔ j ∈ c₂) : c₁ = c₂ := by
  haveI : IsAntisymm Nat (· < ·) :=
    ⟨fun a b ha hb => absurd (Nat.lt_trans ha hb) (Nat.lt_irrefl a)⟩
  have nd1 : c₁.Nodup := h1.imp Nat.ne_of_lt
  have nd2 : c₂.Nodup := h2.imp Nat.ne_of_lt
  exact List.eq_of_perm_of_sorted ((List.perm_ext_iff_of_nodup nd1 nd2).mpr hiff) h1 h2

theorem takeWhile_all_append (p : Char → Bool) (l₁ : List Char) (x : Char)
    (l₂ : List Char) (h1 : ∀ a ∈ l₁, p a = true) (h2 : p x = false) :
    (l₁ ++ x :: l₂).takeWhile p = l₁ := by
  induction l₁ with
  | nil => simp [List.takeWhile_cons, h2]
  | cons a as ih =>
      have ha : p a = true := h1 a (List.mem_cons_self a as)
      simp only [List.cons_append, List.takeWhile_cons, ha, if_pos]
      rw [ih fun b hb => h1 b (List.mem_cons_of_mem a hb)]

/-- The list of all chosen-boundary combinations, over all separator
counts, in generation order. -/
def allCombos (n : Nat) : List (List Nat) :=
  (boundaries n).flatMap fun i => combinations i (boundaries n)

theorem nodup_allCombos (n : Nat) : (allCombos n).Nodup := by
  unfold allCombos
  rw [List.nodup_flatMap]
  constructor
  · exact fun i _ => nodup_combinations (boundaries n) (nodup_boundaries n) i
  · refine (pairwise_boundaries n).imp ?_
    intro i j hij
    intro c hci hcj
    have h1 := (mem_combinations (boundaries n) i c hci).1
    have h2 := (mem_combinations (boundaries n) j c hcj).1
    omega

theorem mem_allCombos_facts {n : Nat} {pos : List Nat} (h : pos ∈ allCombos n) :
    pos ≠ [] ∧ pos.Pairwise (· < ·) ∧ ∀ q ∈ pos, 1 ≤ q ∧ q < n := by
  unfold allCombos at h
  obtain ⟨i, hi, hpos⟩ := List.mem_flatMap.mp h
  obtain ⟨hlen, hpw, hbnd⟩ := combo_facts hpos
  have hi1 : 1 ≤ i := (mem_boundaries hi).1
  refine ⟨?_, hpw, hbnd⟩
  intro hnil
  rw [hnil] at hlen
  simp at hlen
  omega

theorem nodup_generatedEmails (e : String) (hdot : '.' ∉ localPart e) :
    (generatedEmails e).Nodup := by
  rw [generatedEmails_eq_specPool]
  show (e :: (boundaries (localPart e).length).flatMap
      (fun i => (combinations i (boundaries (localPart e).length)).map fun pos =>
        String.mk (dotsAt pos 0 (localPart e) ++ gmailSuffix))).Nodup
  rw [← List.map_flatMap]
  rw [List.nodup_cons]
  constructor
  · -- the seed is not one of the dotted variants
    intro hmem
    obtain ⟨pos, hpos, heq⟩ := List.mem_map.mp hmem
    obtain ⟨hne, hpw, hbnd⟩ := mem_allCombos_facts hpos
    have hdata : dotsAt pos 0 (localPart e) ++ gmailSuffix = e.data :=
      congrArg String.data heq
    -- take the part before the first '@' on both sides
    have hallne : ∀ a ∈ dotsAt pos 0 (localPart e), (a ≠ '@' : Bool) = true := by
      intro a ha
      rcases mem_dotsAt (localPart e) 0 pos a ha with hm | hm
      · simpa using List.mem_takeWhile_imp hm
      · subst hm
        decide
    have hsplit : gmailSuffix = '@' :: "gmail.com".data := rfl
    have htake : e.data.takeWhile (· ≠ '@') = dotsAt pos 0 (localPart e) := by
      rw [← hdata, hsplit]
      exact takeWhile_all_append _ _ _ _ hallne (by decide)
    have hu : localPart e = dotsAt pos 0 (localPart e) := htake
    obtain ⟨q, hq⟩ := List.exists_mem_of_ne_nil pos hne
    have hdotmem : '.' ∈ dotsAt pos 0 (localPart e) := by
      refine dot_mem_dotsAt (localPart e) 0 q pos hq (Nat.zero_le q) ?_
      have := (hbnd q hq).2
      omega
    rw [← hu] at hdotmem
    exact hdot hdotmem
  · -- the dotted variants are pairwise distinct
    refine List.Nodup.map_on ?_ (nodup_allCombos (localPart e).length)
    intro p1 hp1 p2 hp2 heq
    have hdata := congrArg String.data heq
    have happ : dotsAt p1 0 (localPart e) = dotsAt p2 0 (localPart e) :=
      List.append_cancel_right hdata
    obtain ⟨-, hpw1, hbnd1⟩ := mem_allCombos_facts hp1
    obtain ⟨-, hpw2, hbnd2⟩ := mem_allCombos_facts hp2
    have hiff := dotsAt_mem_iff (localPart e) 0 p1 p2 hdot
      (fun j hj => by have := (hbnd1 j hj).2; omega)
      (fun j hj => by have := (hbnd2 j hj).2; omega) happ
    exact eq_of_pairwise_lt_of_mem_iff p1 p2 hpw1 hpw2 fun j =>
      hiff j (Nat.zero_le j)

/-! ### Counting the generated pool -/

theorem length_flatMap_eq {α β : Type} (l : List α) (f : α → List β) :
    (l.flatMap f).length = (l.map fun a => (f a).length).sum := by
  induction l with
  | nil => rfl
  | cons x xs ih => simp [List.flatMap_cons, ih]

theorem list_sum_map_range (f : Nat → Nat) :
    ∀ m : Nat, ((List.range m).map f).sum = ∑ i ∈ Finset.range m, f i := by
  intro m
  induction m with
  | zero => rfl
  | succ m ih =>
      rw [List.range_succ, List.map_append, List.sum_append, Finset.sum_range_succ, ih]
      simp

theorem sum_range'_choose (m : Nat) :
    ((List.range' 1 m).map fun i => m.choose i).sum = 2 ^ m - 1 := by
  rw [List.range'_eq_map_range, List.map_map]
  have hcomp : ((fun i => m.choose i) ∘ fun i => 1 + i) = fun i => m.choose (1 + i) := rfl
  rw [hcomp, list_sum_map_range]
  have h := Nat.sum_range_choose m
  rw [Finset.sum_range_succ'] at h
  have hswap : ∑ i ∈ Finset.range m, m.choose (1 + i) =
      ∑ i ∈ Finset.range m, m.choose (i + 1) :=
    Finset.sum_congr rfl fun i _ => by rw [Nat.add_comm]
  rw [hswap]
  simp only [Nat.choose_zero_right] at h
  omega

theorem length_generatedEmails (e : String) :
    (generatedEmails e).length = 2 ^ ((localPart e).length - 1) := by
  show (e :: (boundaries (localPart e).length).flatMap
      (fun i => (combinations i (boundaries (localPart e).length)).map fun pos =>
        String.mk (applyDots (localPart e) pos ++ gmailSuffix))).length = _
  rw [List.length_cons, length_flatMap_eq]
  have hmap : ((boundaries (localPart e).length).map fun i =>
      ((combinations i (boundaries (localPart e).length)).map fun pos =>
        String.mk (applyDots (localPart e) pos ++ gmailSuffix)).length) =
      (List.range' 1 ((localPart e).length - 1)).map
        fun i => ((localPart e).length - 1).choose i := by
    refine List.map_congr_left fun i _ => ?_
    rw [List.length_map, length_combinations]
    unfold boundaries
    rw [List.length_range']
  rw [hmap, sum_range'_choose]
  have hpos : 1 ≤ 2 ^ ((localPart e).length - 1) := Nat.one_le_two_pow
  omega

/-- A valid seed rebuilds both files and the in-memory state from the
generated pool. -/
theorem generateDomainNames_of_valid (db : DB) (e : String)
    (he : pyEndsWith e "@gmail.com" = true) :
    generateDomainNames db e =
      (.ok (generatedEmails e).length,
       ⟨generatedEmails e, [], generatedEmails e, []⟩) := by
  unfold generateDomainNames
  rw [if_pos he]

/-! ### Claim C1: the generated address space -/

/-- C1 (amended: the seed's local part must not itself contain a separator,
otherwise duplicate variants arise): for a seed ending in the provider domain
with dot-free local part of length `N ≥ 1`, `generate_domain_names` returns
the count `2^(N-1)` and installs a pool of `2^(N-1)` distinct addresses whose
first element is the unmodified seed, equal to the specification-side
enumeration — original first, then by increasing separator count, and within
one count in the lexicographic order in which increasing-index combination
generation emits the boundary choices. -/
theorem c1_generate_pool (db : DB) (e : String)
    (hend : pyEndsWith e "@gmail.com" = true)
    (_hN : 1 ≤ (localPart e).length)
    (hdot : '.' ∉ localPart e) :
    generateDomainNames db e =
      (.ok (2 ^ ((localPart e).length - 1)),
       ⟨generatedEmails e, [], generatedEmails e, []⟩) ∧
    (generatedEmails e).length = 2 ^ ((localPart e).length - 1) ∧
    (generatedEmails e).Nodup ∧
    (generatedEmails e).head? = some e ∧
    generatedEmails e = specPool e ∧
    ∀ i : Nat, (combinations i (boundaries (localPart e).length)).Pairwise
      (List.Lex (· < ·)) := by
  refine ⟨?_, length_generatedEmails e, nodup_generatedEmails e hdot, rfl,
    generatedEmails_eq_specPool e,
    fun i => pairwise_lex_combinations _ (pairwise_boundaries _) i⟩
  rw [generateDomainNames_of_valid db e hend, length_generatedEmails e]

/-- Witness for C1 at the seed `abc@gmail.com` (the spec's own example:
`abc, a.bc, ab.c, a.b.c`). -/
theorem c1_generate_pool_witness :
    pyEndsWith "abc@gmail.com" "@gmail.com" = true ∧
    1 ≤ (localPart "abc@gmail.com").length ∧
    '.' ∉ localPart "abc@gmail.com" ∧
    generatedEmails "abc@gmail.com" = specPool "abc@gmail.com" ∧
    (generatedEmails "abc@gmail.com").length = 4 := by
  refine ⟨by decide, by decide, by decide,
    (c1_generate_pool ⟨[], [], [], []⟩ "abc@gmail.com" (by decide) (by decide)
      (by decide)).2.2.2.2.1, ?_⟩
  rw [(c1_generate_pool ⟨[], [], [], []⟩ "abc@gmail.com" (by decide) (by decide)
    (by decide)).2.1]
  decide

/-- Counterexample to C1 as stated: the seed `a.b@gmail.com` ends in the
provider domain and has local part length `3 ≥ 1`, the returned count is
`2^2 = 4`, but the pool is NOT four distinct aliases — `a..b@gmail.com`
is produced twice (boundary before and boundary after the existing dot). -/
theorem c1_counterexample_dotted_seed :
    pyEndsWith "a.b@gmail.com" "@gmail.com" = true ∧
    1 ≤ (localPart "a.b@gmail.com").length ∧
    (generatedEmails "a.b@gmail.com").length =
      2 ^ ((localPart "a.b@gmail.com").length - 1) ∧
    ¬(generatedEmails "a.b@gmail.com").Nodup := by
  decide
